import Mathlib

/-!
Shallow embedding of `src/sbc/system.py` (class `Model`).

The Python class resolves a chain length from three optional parameter
arrays (`z_fields`, `x_fields`, `zz_couplers`), normalizes each array by
wrapping plain numbers into `Scalar` objects while aliasing equal entries
to a single shared object, and computes a map from site indices to the
smallest site index carrying an equal transverse field.

Python object identity is modelled by giving every `Scalar` an allocation
identifier: the embedding threads an allocation counter through the
construction, so freshly wrapped scalars receive identifiers distinct from
each other and from every caller-supplied scalar.  Two normalized entries
are "the same shared object" exactly when they are equal as terms.
-/

set_option maxHeartbeats 1000000

namespace Sbc

/-- Modelled from the spec: the time-dependent scalar abstraction
`sbc.scalar.Scalar` (its source `sbc/scalar.py` is not part of the supplied
code, only `system.py` is).  Per the spec it supports construction from a
plain real number, producing a time-independent constant — the `val` field,
with rationals standing in for reals — and value-equality comparison.  The
`id` field models Python object identity (see the module docstring). -/
structure Scalar where
  id : Nat
  val : ℚ
deriving DecidableEq

/-- An element of one of the three constructor arrays: either a plain number
(Python `float` or `int`) or an already-constructed `Scalar` object. -/
inductive Elem where
  | raw (v : ℚ)
  | scal (s : Scalar)
deriving DecidableEq

instance : Inhabited Elem := ⟨Elem.raw 0⟩

/-- The numeric value carried by an array entry. -/
def Elem.value : Elem → ℚ
  | .raw v => v
  | .scal s => s.val

/-- Python `isinstance(e, Scalar)`. -/
def Elem.isScalar : Elem → Bool
  | .raw _ => false
  | .scal _ => true

/-- Modelled from the spec: Python `==` between array entries.  The spec
specifies that the scalar abstraction supports value-equality comparison,
so equality between entries (raw or wrapped) is equality of carried
values. -/
def pyEq (a b : Elem) : Bool := decide (a.value = b.value)

/-- One `candidate_Ls.add` clause of `_determine_L`: a present, non-empty
parameter contributes the length `f l` derived from it. -/
def optPart (f : List Elem → Nat) (o : Option (List Elem)) : List Nat :=
  match o with
  | none => []
  | some l => if l.length ≠ 0 then [f l] else []

/-- The list of candidate chain lengths, in the order `_determine_L` adds
them to `candidate_Ls`: `len(z_fields)`, `len(x_fields)`,
`len(zz_couplers) + 1`, each contributed only when the parameter is present
(not `None`) and non-empty. -/
def impliedLengthList (z x zz : Option (List Elem)) : List Nat :=
  optPart (fun l => l.length) z ++ optPart (fun l => l.length) x ++
    optPart (fun l => l.length + 1) zz

/-- The set `candidate_Ls`, modelled as the deduplicated candidate list. -/
def candidate_Ls (z x zz : Option (List Elem)) : List Nat :=
  (impliedLengthList z x zz).dedup

/-- The single failure mode of `Model.__init__`: the exception raised by
`_determine_L` when the arrays have incompatible dimensions. -/
inductive ModelError where
  | DimensionMismatch
deriving DecidableEq

/-- Embedding of `Model._determine_L`: one distinct candidate length wins,
no candidate defaults to `1`, several distinct candidates raise. -/
def determine_L (z x zz : Option (List Elem)) : Except ModelError Nat :=
  let c := candidate_Ls z x zz
  if c.length = 0 then .ok 1
  else if c.length ≠ 1 then .error .DimensionMismatch
  else .ok (c.getD 0 1)

/-- The first two statements of `_construct_attribute`: a `None` or empty
`ctor_param` is replaced by `[0] * array_size`. -/
def defaulted (ctor_param : Option (List Elem)) (array_size : Nat) : List Elem :=
  match ctor_param with
  | none => List.replicate array_size (Elem.raw 0)
  | some l => if l.length = 0 then List.replicate array_size (Elem.raw 0) else l

/-- One inner sharing pass, common shape of the inner loops of
`_construct_attribute` and `_calc_map_btwn_site_indices_and_unique_x_fields`:
for each index `j` drawn from `js`, if `cond j` holds overwrite position `j`
of the accumulator with the accumulator's current entry at position `i`. -/
def sharePass {β : Type} [Inhabited β] (cond : Nat → Bool) (i : Nat)
    (js : List Nat) (res : List β) : List β :=
  js.foldl (fun r j => if cond j then r.set j (r.getD i default) else r) res

/-- Python `Scalar(e)` guarded by the `isinstance` check of
`_construct_attribute`: a raw number is wrapped into a freshly allocated
`Scalar` (consuming one allocation identifier), an existing `Scalar` is kept
as is. -/
def wrapElem (e : Elem) (nid : Nat) : Elem × Nat :=
  match e with
  | .raw v => (.scal ⟨nid, v⟩, nid + 1)
  | .scal s => (.scal s, nid)

/-- One iteration of the outer loop of `_construct_attribute`: wrap the
entry at `idx1 = i` if it is not yet a `Scalar`, then alias every later
position whose raw entry (in `ctor`) equals the raw entry at `i` to the
object now held at position `i`. -/
def attrStep (ctor : List Elem) (array_size : Nat)
    (st : List Elem × Nat) (i : Nat) : List Elem × Nat :=
  let att := st.1
  let xi := (wrapElem (att.getD i default) st.2).1
  let nid := (wrapElem (att.getD i default) st.2).2
  let att1 := att.set i xi
  (sharePass (fun j => pyEq (ctor.getD j default) (ctor.getD i default)) i
     (List.range' (i + 1) (array_size - (i + 1))) att1, nid)

/-- The first `i` iterations of the outer loop of `_construct_attribute`,
starting from the copy `attribute = ctor_param[:]` and allocation counter
`n0`. -/
def attrLoopAux (ctor : List Elem) (array_size n0 i : Nat) : List Elem × Nat :=
  (List.range i).foldl (attrStep ctor array_size) (ctor, n0)

/-- Embedding of `Model._construct_attribute`.  Besides the normalized
array it returns the advanced allocation counter, which the caller threads
into the next construction. -/
def construct_attribute (ctor_param : Option (List Elem))
    (array_size n0 : Nat) : List Elem × Nat :=
  attrLoopAux (defaulted ctor_param array_size) array_size n0 array_size

/-- One iteration of the outer loop of
`_calc_map_btwn_site_indices_and_unique_x_fields`: for every `idx2 = j`
with `i < j < L`, if the x-field at `j` compares equal to the x-field at
`i`, overwrite `result[j]` with `result[i]`. -/
def mapPass (eqb : Elem → Elem → Bool) (xs : List Elem) (L i : Nat)
    (res : List Nat) : List Nat :=
  sharePass (fun j => eqb (xs.getD j default) (xs.getD i default)) i
    (List.range' (i + 1) (L - (i + 1))) res

/-- The first `i` outer iterations of the map computation, starting from
`result = list(range(L))`. -/
def mapLoopAux (eqb : Elem → Elem → Bool) (xs : List Elem) (L i : Nat) : List Nat :=
  (List.range i).foldl (fun res idx1 => mapPass eqb xs L idx1 res) (List.range L)

/-- The map computation, generic in the boolean comparison used between
entries. -/
def calcMapGen (eqb : Elem → Elem → Bool) (xs : List Elem) (L : Nat) : List Nat :=
  mapLoopAux eqb xs L L

/-- Embedding of `Model._calc_map_btwn_site_indices_and_unique_x_fields`,
instantiated with the Python `==` comparison between normalized entries. -/
def calc_map_btwn_site_indices_and_unique_x_fields
    (xs : List Elem) (L : Nat) : List Nat :=
  calcMapGen pyEq xs L

/-- The attributes of a fully constructed `Model` object. -/
structure Model where
  L : Nat
  x_fields : List Elem
  z_fields : List Elem
  zz_couplers : List Elem
  map_btwn_site_indices_and_unique_x_fields : List Nat
deriving DecidableEq

/-- One more than the largest allocation identifier appearing among the
caller-supplied `Scalar` objects of one optional array; used to start the
allocation counter above every existing object. -/
def idBound (p : Option (List Elem)) : Nat :=
  match p with
  | none => 0
  | some l => l.foldl (fun m e => match e with
      | .raw _ => m
      | .scal s => max m (s.id + 1)) 0

/-- Embedding of `Model.__init__`: resolve `L`, then normalize `x_fields`,
`z_fields` and `zz_couplers` in the source's order (threading the
allocation counter, which starts above every caller-supplied identifier),
then compute the x-field map. -/
def mkModel (z x zz : Option (List Elem)) : Except ModelError Model :=
  match determine_L z x zz with
  | .error e => .error e
  | .ok L =>
    let n0 := max (idBound z) (max (idBound x) (idBound zz))
    let xf := (construct_attribute x L n0).1
    let n1 := (construct_attribute x L n0).2
    let zf := (construct_attribute z L n1).1
    let n2 := (construct_attribute z L n1).2
    let zzc := (construct_attribute zz (L - 1) n2).1
    .ok { L := L
          x_fields := xf
          z_fields := zf
          zz_couplers := zzc
          map_btwn_site_indices_and_unique_x_fields :=
            calc_map_btwn_site_indices_and_unique_x_fields xf L }

/-- The model produced for given inputs, with a dummy fallback in the
error case; used to state closed, fully evaluated facts about particular
constructions. -/
def modelOf (z x zz : Option (List Elem)) : Model :=
  match mkModel z x zz with
  | .ok m => m
  | .error _ => ⟨1, [], [], [], []⟩

/-- The smallest index of `xs` whose entry compares `pyEq`-equal to the
entry at index `r` (Python's first value-equal occurrence). -/
def firstEqIdx (xs : List Elem) (r : Nat) : Nat :=
  xs.findIdx (fun e => pyEq e (xs.getD r default))

/-- The spec's notion of an input supplying an implied chain length:
`len(z_fields)`, `len(x_fields)` or `len(zz_couplers) + 1` for a present and
non-empty parameter.  Stated independently of `determine_L`, from the
spec's words, for comparison with the code's behaviour. -/
def ImpliesChainLen (z x zz : Option (List Elem)) (n : Nat) : Prop :=
  (∃ l, z = some l ∧ l ≠ [] ∧ n = l.length) ∨
  (∃ l, x = some l ∧ l ≠ [] ∧ n = l.length) ∨
  (∃ l, zz = some l ∧ l ≠ [] ∧ n = l.length + 1)

/-- A normalized array consisting of `n` wrapped zero scalars. -/
def ZeroScalArray (l : List Elem) (n : Nat) : Prop :=
  l.length = n ∧ ∀ e ∈ l, ∃ s, e = Elem.scal s ∧ s.val = 0

/-! ### Generic list helpers -/

lemma getD_set_ne {β : Type} [Inhabited β] (l : List β) (j m : Nat) (a : β)
    (h : j ≠ m) : (l.set j a).getD m default = l.getD m default := by
  rw [List.getD_eq_getElem?_getD, List.getD_eq_getElem?_getD,
    List.getElem?_set_ne h]

lemma getD_set_self {β : Type} [Inhabited β] (l : List β) (j : Nat) (a : β)
    (h : j < l.length) : (l.set j a).getD j default = a := by
  rw [List.getD_eq_getElem?_getD, List.getElem?_set_self h]
  rfl

lemma getD_set_self_ge {β : Type} [Inhabited β] (l : List β) (j : Nat) (a : β)
    (h : l.length ≤ j) : (l.set j a).getD j default = l.getD j default := by
  rw [List.set_eq_of_length_le h]

lemma getD_eq_getElem {β : Type} [Inhabited β] (l : List β) (k : Nat)
    (h : k < l.length) : l.getD k default = l[k] := by
  rw [List.getD_eq_getElem?_getD, List.getElem?_eq_getElem h]
  rfl

lemma findIdx_le_of_true {p : Elem → Bool} {l : List Elem} {k : Nat}
    (hk : k < l.length) (hp : p (l.getD k default) = true) : l.findIdx p ≤ k := by
  by_contra hcon
  push_neg at hcon
  have hf : p l[k] = false := List.not_of_lt_findIdx hcon
  rw [getD_eq_getElem l k hk] at hp
  rw [hp] at hf
  cases hf

lemma findIdx_true_at {p : Elem → Bool} {l : List Elem}
    (h : l.findIdx p < l.length) : p (l.getD (l.findIdx p) default) = true := by
  rw [getD_eq_getElem l _ h]
  exact List.findIdx_getElem

/-! ### Pointwise description of a sharing pass -/

lemma sharePass_cons {β : Type} [Inhabited β] (cond : Nat → Bool) (i j : Nat)
    (t : List Nat) (res : List β) :
    sharePass cond i (j :: t) res =
      sharePass cond i t (if cond j then res.set j (res.getD i default) else res) := by
  simp only [sharePass, List.foldl_cons]

lemma sharePass_length {β : Type} [Inhabited β] (cond : Nat → Bool) (i : Nat)
    (js : List Nat) (res : List β) :
    (sharePass cond i js res).length = res.length := by
  induction js generalizing res with
  | nil => rfl
  | cons j t ih =>
    rw [sharePass_cons, ih]
    by_cases hcj : cond j = true <;> simp [hcj]

lemma sharePass_getD {β : Type} [Inhabited β] (cond : Nat → Bool) (i : Nat)
    (js : List Nat) (res : List β) (hij : ∀ j ∈ js, i < j) (k : Nat) :
    (sharePass cond i js res).getD k default =
      if k ∈ js ∧ cond k = true ∧ k < res.length then res.getD i default
      else res.getD k default := by
  induction js generalizing res with
  | nil => simp [sharePass]
  | cons j t ih =>
    have hj : i < j := hij j (List.mem_cons_self j t)
    have hij' : ∀ m ∈ t, i < m := fun m hm => hij m (List.mem_cons_of_mem _ hm)
    rw [sharePass_cons]
    by_cases hcj : cond j = true
    · rw [if_pos hcj, ih _ hij']
      have hlen' : (res.set j (res.getD i default)).length = res.length :=
        List.length_set res j _
      have hgi : (res.set j (res.getD i default)).getD i default = res.getD i default :=
        getD_set_ne res j i _ (by omega)
      rw [hlen', hgi]
      by_cases hkj : k = j
      · subst hkj
        by_cases hklen : k < res.length
        · rw [getD_set_self res k _ hklen, ite_self,
            if_pos ⟨List.mem_cons_self k t, hcj, hklen⟩]
        · rw [getD_set_self_ge res k _ (by omega),
            if_neg (fun h => hklen h.2.2), if_neg (fun h => hklen h.2.2)]
      · rw [getD_set_ne res j k _ (fun h => hkj h.symm)]
        refine if_congr ?_ rfl rfl
        have hmem : k ∈ j :: t ↔ k ∈ t := by
          rw [List.mem_cons]
          exact ⟨fun h => h.elim (fun h' => absurd h' hkj) id, Or.inr⟩
        rw [hmem]
    · rw [if_neg hcj, ih _ hij']
      refine if_congr ?_ rfl rfl
      constructor
      · rintro ⟨hm, hc, hl⟩
        exact ⟨List.mem_cons_of_mem _ hm, hc, hl⟩
      · rintro ⟨hm, hc, hl⟩
        rcases List.mem_cons.1 hm with h | h
        · subst h; rw [hc] at hcj; cases hcj rfl
        · exact ⟨h, hc, hl⟩

lemma sharePass_range'_getD {β : Type} [Inhabited β] (cond : Nat → Bool)
    (i L : Nat) (res : List β) (hlen : res.length = L) (k : Nat) :
    (sharePass cond i (List.range' (i + 1) (L - (i + 1))) res).getD k default =
      if i < k ∧ k < L ∧ cond k = true then res.getD i default
      else res.getD k default := by
  rw [sharePass_getD cond i _ res
    (fun j hj => by rw [List.mem_range'_1] at hj; omega) k]
  have : (k ∈ List.range' (i + 1) (L - (i + 1)) ∧ cond k = true ∧ k < res.length) ↔
      (i < k ∧ k < L ∧ cond k = true) := by
    rw [List.mem_range'_1, hlen]
    constructor
    · rintro ⟨⟨h1, h2⟩, hc, hl⟩
      exact ⟨by omega, hl, hc⟩
    · rintro ⟨h1, h2, hc⟩
      exact ⟨⟨by omega, by omega⟩, hc, h2⟩
  rw [if_congr this rfl rfl]

/-! ### Value equality and first-occurrence indices -/

lemma pyEq_iff {a b : Elem} : pyEq a b = true ↔ a.value = b.value := by
  simp [pyEq]

lemma pyEq_refl (a : Elem) : pyEq a a = true := pyEq_iff.2 rfl

lemma firstEqIdx_le {xs : List Elem} {k : Nat} (hk : k < xs.length) :
    firstEqIdx xs k ≤ k :=
  findIdx_le_of_true hk (pyEq_refl _)

lemma firstEqIdx_lt {xs : List Elem} {k : Nat} (hk : k < xs.length) :
    firstEqIdx xs k < xs.length :=
  lt_of_le_of_lt (firstEqIdx_le hk) hk

lemma firstEqIdx_value {xs : List Elem} {k : Nat} (hk : k < xs.length) :
    (xs.getD (firstEqIdx xs k) default).value = (xs.getD k default).value :=
  pyEq_iff.1 (findIdx_true_at (firstEqIdx_lt hk))

lemma firstEqIdx_congr (xs : List Elem) (a b : Nat)
    (h : (xs.getD a default).value = (xs.getD b default).value) :
    firstEqIdx xs a = firstEqIdx xs b := by
  unfold firstEqIdx
  congr 1
  funext e
  simp only [pyEq]
  rw [h]

lemma firstEqIdx_min {xs : List Elem} {k m : Nat}
    (hm : m < firstEqIdx xs k) :
    pyEq (xs.getD m default) (xs.getD k default) = false := by
  have hlen : m < xs.length :=
    lt_of_lt_of_le hm (List.findIdx_le_length _)
  have := List.not_of_lt_findIdx hm
  rw [getD_eq_getElem xs m hlen]
  exact this

/-! ### The map loop -/

lemma mapLoopAux_succ (eqb : Elem → Elem → Bool) (xs : List Elem) (L i : Nat) :
    mapLoopAux eqb xs L (i + 1) = mapPass eqb xs L i (mapLoopAux eqb xs L i) := by
  rw [mapLoopAux, mapLoopAux, List.range_succ, List.foldl_append]
  rfl

lemma mapPass_length (eqb : Elem → Elem → Bool) (xs : List Elem) (L i : Nat)
    (res : List Nat) : (mapPass eqb xs L i res).length = res.length :=
  sharePass_length _ _ _ _

lemma mapPass_getD (eqb : Elem → Elem → Bool) (xs : List Elem) (L i : Nat)
    (res : List Nat) (hlen : res.length = L) (k : Nat) :
    (mapPass eqb xs L i res).getD k default =
      if i < k ∧ k < L ∧ eqb (xs.getD k default) (xs.getD i default) = true
      then res.getD i default else res.getD k default :=
  sharePass_range'_getD _ i L res hlen k

lemma getD_range (L k : Nat) (hk : k < L) : (List.range L).getD k default = k := by
  rw [getD_eq_getElem _ _ (by simpa using hk), List.getElem_range]

/-- Loop invariant of the map computation, for an arbitrary boolean
comparison: entries never exceed their index, the map is idempotent, and
every entry moved off the diagonal is below the outer-loop progress. -/
lemma mapLoopAux_inv (eqb : Elem → Elem → Bool) (xs : List Elem) (L : Nat) :
    ∀ i, i ≤ L →
      (mapLoopAux eqb xs L i).length = L ∧
      (∀ k, k < L → (mapLoopAux eqb xs L i).getD k default ≤ k) ∧
      (∀ k, k < L →
        (mapLoopAux eqb xs L i).getD ((mapLoopAux eqb xs L i).getD k default) default =
          (mapLoopAux eqb xs L i).getD k default) ∧
      (∀ k, k < L →
        (mapLoopAux eqb xs L i).getD k default = k ∨
          (mapLoopAux eqb xs L i).getD k default < i) := by
  intro i
  induction i with
  | zero =>
    intro _
    refine ⟨List.length_range L, ?_, ?_, ?_⟩
    · intro k hk
      rw [mapLoopAux, List.range_zero, List.foldl_nil, getD_range L k hk]
    · intro k hk
      rw [mapLoopAux, List.range_zero, List.foldl_nil, getD_range L k hk,
        getD_range L k hk]
    · intro k hk
      left
      rw [mapLoopAux, List.range_zero, List.foldl_nil, getD_range L k hk]
  | succ i ih =>
    intro hiL
    have hiL' : i < L := hiL
    obtain ⟨hlen, ha, hb, hc⟩ := ih (Nat.le_of_succ_le hiL)
    have hpt : ∀ k, (mapPass eqb xs L i (mapLoopAux eqb xs L i)).getD k default =
        if i < k ∧ k < L ∧
            eqb (xs.getD k default) (xs.getD i default) = true
        then (mapLoopAux eqb xs L i).getD i default
        else (mapLoopAux eqb xs L i).getD k default :=
      fun k => mapPass_getD eqb xs L i _ hlen k
    rw [mapLoopAux_succ]
    refine ⟨by rw [mapPass_length, hlen], ?_, ?_, ?_⟩
    · intro k hk
      rw [hpt k]
      split_ifs with hW
      · have := ha i hiL'
        omega
      · exact ha k hk
    · intro k hk
      rw [hpt k]
      split_ifs with hW
      · have hvi : (mapLoopAux eqb xs L i).getD i default ≤ i := ha i hiL'
        rw [hpt _, if_neg (fun h => by omega)]
        exact hb i hiL'
      · have hbv := hb k hk
        rw [hpt _]
        by_cases hWv : i < (mapLoopAux eqb xs L i).getD k default ∧
            (mapLoopAux eqb xs L i).getD k default < L ∧
            eqb (xs.getD ((mapLoopAux eqb xs L i).getD k default) default)
              (xs.getD i default) = true
        · rcases hc k hk with he | hlt
          · rw [he] at hWv
            exact absurd ⟨hWv.1, hk, hWv.2.2⟩ hW
          · exact absurd hWv.1 (by omega)
        · rw [if_neg hWv]
          exact hbv
    · intro k hk
      rw [hpt k]
      split_ifs with hW
      · right
        have := ha i hiL'
        omega
      · rcases hc k hk with h | h
        · exact Or.inl h
        · exact Or.inr (by omega)

/-- Pointwise description of the map computation under the value-equality
comparison used by the code: after `i` outer iterations an entry holds the
first value-equal index once that index has been reached, and its own index
until then. -/
lemma mapLoopAux_pyEq (xs : List Elem) (L : Nat) (hlen : xs.length = L) :
    ∀ i, i ≤ L → (mapLoopAux pyEq xs L i).length = L ∧
      ∀ k, k < L → (mapLoopAux pyEq xs L i).getD k default =
        if firstEqIdx xs k < i then firstEqIdx xs k else k := by
  intro i
  induction i with
  | zero =>
    intro _
    refine ⟨List.length_range L, fun k hk => ?_⟩
    rw [mapLoopAux, List.range_zero, List.foldl_nil, getD_range L k hk,
      if_neg (by omega)]
  | succ i ih =>
    intro hiL
    have hiL' : i < L := hiL
    obtain ⟨hl, hspec⟩ := ih (Nat.le_of_succ_le hiL)
    have hfile : firstEqIdx xs i ≤ i := firstEqIdx_le (by omega)
    have hfi : (mapLoopAux pyEq xs L i).getD i default = firstEqIdx xs i := by
      rw [hspec i hiL']
      split_ifs with h
      · rfl
      · omega
    rw [mapLoopAux_succ]
    refine ⟨by rw [mapPass_length, hl], fun k hk => ?_⟩
    rw [mapPass_getD pyEq xs L i _ hl k]
    have hfkle : firstEqIdx xs k ≤ k := firstEqIdx_le (by omega)
    by_cases hW : i < k ∧ k < L ∧
        pyEq (xs.getD k default) (xs.getD i default) = true
    · rw [if_pos hW, hfi]
      have hfk : firstEqIdx xs k = firstEqIdx xs i :=
        firstEqIdx_congr xs k i (pyEq_iff.1 hW.2.2)
      rw [if_pos (by omega), hfk]
    · rw [if_neg hW, hspec k hk]
      by_cases h1 : firstEqIdx xs k < i
      · rw [if_pos h1, if_pos (by omega)]
      · by_cases h2 : firstEqIdx xs k = i
        · have hkval : (xs.getD (firstEqIdx xs k) default).value =
              (xs.getD k default).value := firstEqIdx_value (by omega)
          have hpy : pyEq (xs.getD k default) (xs.getD i default) = true := by
            refine pyEq_iff.2 ?_
            rw [← h2]
            exact hkval.symm
          have hik : ¬ i < k := fun hlt => hW ⟨hlt, hk, hpy⟩
          have hki : k = i := by omega
          rw [if_neg (by omega), if_pos (by omega)]
          omega
        · rw [if_neg h1, if_neg (by omega)]

/-- Final description of the computed map: each entry is the smallest
value-equal index. -/
lemma calcMap_pyEq_spec (xs : List Elem) (L : Nat) (hlen : xs.length = L)
    (k : Nat) (hk : k < L) :
    (calcMapGen pyEq xs L).getD k default = firstEqIdx xs k := by
  have h := (mapLoopAux_pyEq xs L hlen L le_rfl).2 k hk
  rw [calcMapGen, h, if_pos (by have := firstEqIdx_le (show k < xs.length by omega); omega)]

lemma calcMap_length (eqb : Elem → Elem → Bool) (xs : List Elem) (L : Nat) :
    (calcMapGen eqb xs L).length = L :=
  (mapLoopAux_inv eqb xs L L le_rfl).1

/-! ### The attribute-construction loop -/

/-- Number of fresh `Scalar` allocations performed by the first `i`
iterations of the attribute loop: one per position that is the first
occurrence of its value and holds a raw number. -/
def freshCount (ctor : List Elem) (i : Nat) : Nat :=
  (List.range i).countP (fun k =>
    firstEqIdx ctor k == k && !(ctor.getD k default).isScalar)

/-- The normalized object representing the value class whose first
occurrence is at position `r`: the caller's object if position `r` already
held a `Scalar`, otherwise the scalar freshly allocated when the outer loop
reached `r`. -/
def wrapAt (ctor : List Elem) (n0 r : Nat) : Elem :=
  match ctor.getD r default with
  | .raw v => .scal ⟨n0 + freshCount ctor r, v⟩
  | .scal s => .scal s

lemma freshCount_succ (ctor : List Elem) (i : Nat) :
    freshCount ctor (i + 1) = freshCount ctor i +
      (if (firstEqIdx ctor i == i && !(ctor.getD i default).isScalar) = true
       then 1 else 0) := by
  simp [freshCount, List.range_succ, List.countP_append, List.countP_cons]

lemma wrapAt_of_raw {ctor : List Elem} {r : Nat} {v : ℚ} (n0 : Nat)
    (h : ctor.getD r default = .raw v) :
    wrapAt ctor n0 r = .scal ⟨n0 + freshCount ctor r, v⟩ := by
  unfold wrapAt
  rw [h]

lemma wrapAt_of_scal {ctor : List Elem} {r : Nat} {s : Scalar} (n0 : Nat)
    (h : ctor.getD r default = .scal s) :
    wrapAt ctor n0 r = .scal s := by
  unfold wrapAt
  rw [h]

lemma wrapAt_isScalar (ctor : List Elem) (n0 r : Nat) :
    ∃ s, wrapAt ctor n0 r = .scal s := by
  unfold wrapAt
  rcases hc : ctor.getD r default with v | s
  · exact ⟨_, rfl⟩
  · exact ⟨_, rfl⟩

lemma wrapAt_value (ctor : List Elem) (n0 r : Nat) :
    (wrapAt ctor n0 r).value = (ctor.getD r default).value := by
  unfold wrapAt
  rcases hc : ctor.getD r default with v | s
  · rfl
  · rfl

lemma attrLoopAux_succ (ctor : List Elem) (size n0 i : Nat) :
    attrLoopAux ctor size n0 (i + 1) =
      attrStep ctor size (attrLoopAux ctor size n0 i) i := by
  rw [attrLoopAux, attrLoopAux, List.range_succ, List.foldl_append]
  rfl

lemma attrStep_fst_length (ctor : List Elem) (size i : Nat)
    (st : List Elem × Nat) :
    (attrStep ctor size st i).1.length = st.1.length := by
  simp only [attrStep]
  rw [sharePass_length, List.length_set]

lemma attrStep_fst_getD (ctor : List Elem) (size i : Nat)
    (st : List Elem × Nat) (hlen : st.1.length = size) (hi : i < size) (k : Nat) :
    (attrStep ctor size st i).1.getD k default =
      if i < k ∧ k < size ∧
          pyEq (ctor.getD k default) (ctor.getD i default) = true
      then (wrapElem (st.1.getD i default) st.2).1
      else if k = i then (wrapElem (st.1.getD i default) st.2).1
      else st.1.getD k default := by
  simp only [attrStep]
  rw [sharePass_range'_getD _ i size _ (by rw [List.length_set, hlen]) k]
  rw [getD_set_self st.1 i _ (by omega)]
  by_cases hki : k = i
  · subst hki
    rw [getD_set_self st.1 k _ (by omega), if_pos rfl]
  · rw [getD_set_ne st.1 i k _ (fun h => hki h.symm), if_neg hki]

/-- Loop invariant of `_construct_attribute`: after `i` outer iterations
the allocation counter has advanced by one per fresh wrap performed so far,
and every position whose first value-equal occurrence has been processed
holds the shared object of its value class, while later group leaders are
still untouched. -/
lemma attrLoopAux_spec (ctor : List Elem) (size n0 : Nat)
    (hlen : ctor.length = size) :
    ∀ i, i ≤ size →
      (attrLoopAux ctor size n0 i).1.length = size ∧
      (attrLoopAux ctor size n0 i).2 = n0 + freshCount ctor i ∧
      ∀ k, k < size → (attrLoopAux ctor size n0 i).1.getD k default =
        if firstEqIdx ctor k < i then wrapAt ctor n0 (firstEqIdx ctor k)
        else ctor.getD k default := by
  intro i
  induction i with
  | zero =>
    intro _
    refine ⟨hlen, by simp [attrLoopAux, freshCount], fun k hk => ?_⟩
    rw [if_neg (by omega)]
    rfl
  | succ i ih =>
    intro hiL
    have hi : i < size := hiL
    obtain ⟨hl, hn, hs⟩ := ih (Nat.le_of_succ_le hiL)
    have hfile : firstEqIdx ctor i ≤ i := firstEqIdx_le (by omega)
    have hxi : (wrapElem ((attrLoopAux ctor size n0 i).1.getD i default)
          (attrLoopAux ctor size n0 i).2).1 =
        wrapAt ctor n0 (firstEqIdx ctor i) ∧
        (wrapElem ((attrLoopAux ctor size n0 i).1.getD i default)
          (attrLoopAux ctor size n0 i).2).2 = n0 + freshCount ctor (i + 1) := by
      rw [hs i hi, hn, freshCount_succ]
      by_cases hfe : firstEqIdx ctor i < i
      · rw [if_pos hfe]
        obtain ⟨s, hws⟩ := wrapAt_isScalar ctor n0 (firstEqIdx ctor i)
        have hbeq : (firstEqIdx ctor i == i) = false := by
          simp only [beq_eq_false_iff_ne, ne_eq]
          omega
        rw [hws, hbeq]
        simp [wrapElem, ← hws]
      · have hfei : firstEqIdx ctor i = i := by omega
        rw [if_neg hfe, hfei]
        rcases hc : ctor.getD i default with v | s
        · rw [wrapAt_of_raw n0 hc]
          simp [wrapElem, Elem.isScalar, Nat.add_assoc]
        · rw [wrapAt_of_scal n0 hc]
          simp [wrapElem, Elem.isScalar]
    rw [attrLoopAux_succ]
    refine ⟨by rw [attrStep_fst_length, hl], ?_, fun k hk => ?_⟩
    · show (attrStep ctor size (attrLoopAux ctor size n0 i) i).2 = _
      simp only [attrStep]
      exact hxi.2
    · rw [attrStep_fst_getD ctor size i _ hl hi k]
      have hfkle : firstEqIdx ctor k ≤ k := firstEqIdx_le (by omega)
      by_cases hW : i < k ∧ k < size ∧
          pyEq (ctor.getD k default) (ctor.getD i default) = true
      · rw [if_pos hW, hxi.1]
        have hfk : firstEqIdx ctor k = firstEqIdx ctor i :=
          firstEqIdx_congr ctor k i (pyEq_iff.1 hW.2.2)
        rw [if_pos (by omega), hfk]
      · rw [if_neg hW]
        by_cases hki : k = i
        · subst hki
          rw [if_pos rfl, hxi.1, if_pos (by omega)]
        · rw [if_neg hki, hs k hk]
          by_cases h1 : firstEqIdx ctor k < i
          · rw [if_pos h1, if_pos (by omega)]
          · by_cases h2 : firstEqIdx ctor k = i
            · have hkval : (ctor.getD (firstEqIdx ctor k) default).value =
                  (ctor.getD k default).value := firstEqIdx_value (by omega)
              have hpy : pyEq (ctor.getD k default) (ctor.getD i default) = true := by
                refine pyEq_iff.2 ?_
                rw [← h2]
                exact hkval.symm
              have hik : ¬ i < k := fun hlt => hW ⟨hlt, hk, hpy⟩
              omega
            · rw [if_neg h1, if_neg (by omega)]

/-- Final description of `_construct_attribute`: every entry of the
normalized array is the shared object of its value class. -/
lemma construct_attribute_spec (p : Option (List Elem)) (size n0 : Nat)
    (hlen : (defaulted p size).length = size) :
    (construct_attribute p size n0).1.length = size ∧
    ∀ k, k < size → (construct_attribute p size n0).1.getD k default =
      wrapAt (defaulted p size) n0 (firstEqIdx (defaulted p size) k) := by
  obtain ⟨h1, _, h3⟩ := attrLoopAux_spec (defaulted p size) size n0 hlen size le_rfl
  refine ⟨h1, fun k hk => ?_⟩
  have h := h3 k hk
  rw [if_pos (by have := @firstEqIdx_le (defaulted p size) k (by omega); omega)] at h
  exact h

/-! ### Length resolution and model construction -/

lemma mem_optPart_iff (f : List Elem → Nat) (o : Option (List Elem)) (n : Nat) :
    n ∈ optPart f o ↔ ∃ l, o = some l ∧ l ≠ [] ∧ n = f l := by
  cases o with
  | none => simp [optPart]
  | some l =>
    by_cases h : l.length = 0
    · have hl : l = [] := List.length_eq_zero.1 h
      subst hl
      simp [optPart]
    · have hl : l ≠ [] := fun he => by rw [he] at h; exact h rfl
      rw [optPart, if_pos h, List.mem_singleton]
      constructor
      · intro he
        exact ⟨l, rfl, hl, he⟩
      · rintro ⟨l', hval, _, he⟩
        injection hval with hval
        subst hval
        exact he

lemma mem_impliedLengthList_iff (z x zz : Option (List Elem)) (n : Nat) :
    n ∈ impliedLengthList z x zz ↔ ImpliesChainLen z x zz n := by
  rw [impliedLengthList, ImpliesChainLen, List.mem_append, List.mem_append,
    mem_optPart_iff, mem_optPart_iff, mem_optPart_iff, or_assoc]

lemma determine_L_ok_of_mem {z x zz : Option (List Elem)} {L n : Nat}
    (h : determine_L z x zz = .ok L)
    (hn : n ∈ impliedLengthList z x zz) : n = L := by
  have hmem : n ∈ candidate_Ls z x zz := List.mem_dedup.2 hn
  simp only [determine_L] at h
  by_cases h0 : (candidate_Ls z x zz).length = 0
  · rw [List.length_eq_zero.1 h0] at hmem
    cases hmem
  · rw [if_neg h0] at h
    by_cases h1 : (candidate_Ls z x zz).length = 1
    · rw [if_neg (fun hne => hne h1)] at h
      obtain ⟨a, ha⟩ := List.length_eq_one.1 h1
      rw [ha] at hmem h
      injection h with h
      rw [List.mem_singleton.1 hmem, ← h]
      rfl
    · rw [if_pos h1] at h
      cases h

lemma determine_L_ok_of_empty {z x zz : Option (List Elem)} {L : Nat}
    (h : determine_L z x zz = .ok L)
    (he : impliedLengthList z x zz = []) : L = 1 := by
  simp only [determine_L, candidate_Ls, he, List.dedup_nil] at h
  simp at h
  exact h.symm

lemma determine_L_error_iff (z x zz : Option (List Elem)) :
    determine_L z x zz = .error .DimensionMismatch ↔
      1 < (candidate_Ls z x zz).length := by
  simp only [determine_L]
  by_cases h0 : (candidate_Ls z x zz).length = 0
  · rw [if_pos h0]
    refine ⟨fun h => ?_, fun h => ?_⟩
    · cases h
    · omega
  · rw [if_neg h0]
    by_cases h1 : (candidate_Ls z x zz).length = 1
    · rw [if_neg (fun hne => hne h1)]
      refine ⟨fun h => ?_, fun h => ?_⟩
      · cases h
      · omega
    · rw [if_pos h1]
      refine ⟨fun _ => ?_, fun _ => rfl⟩
      omega

lemma one_lt_dedup_iff (l : List Nat) :
    1 < l.dedup.length ↔ ∃ a ∈ l, ∃ b ∈ l, a ≠ b := by
  rw [← List.card_toFinset, Finset.one_lt_card]
  simp [List.mem_toFinset]

lemma mkModel_ok_elim (z x zz : Option (List Elem)) (m : Model)
    (h : mkModel z x zz = .ok m) :
    determine_L z x zz = .ok m.L ∧
    m.x_fields = (construct_attribute x m.L
      (max (idBound z) (max (idBound x) (idBound zz)))).1 ∧
    m.z_fields = (construct_attribute z m.L
      (construct_attribute x m.L
        (max (idBound z) (max (idBound x) (idBound zz)))).2).1 ∧
    m.zz_couplers = (construct_attribute zz (m.L - 1)
      (construct_attribute z m.L
        (construct_attribute x m.L
          (max (idBound z) (max (idBound x) (idBound zz)))).2).2).1 ∧
    m.map_btwn_site_indices_and_unique_x_fields =
      calc_map_btwn_site_indices_and_unique_x_fields m.x_fields m.L := by
  simp only [mkModel] at h
  cases hD : determine_L z x zz with
  | error e =>
    rw [hD] at h
    cases h
  | ok L =>
    rw [hD] at h
    injection h with h
    subst h
    exact ⟨rfl, rfl, rfl, rfl, rfl⟩

lemma defaulted_length (o : Option (List Elem)) (size : Nat)
    (hcons : ∀ l, o = some l → l ≠ [] → l.length = size) :
    (defaulted o size).length = size := by
  cases o with
  | none => simp [defaulted]
  | some l =>
    by_cases hl : l.length = 0
    · simp [defaulted, hl]
    · rw [defaulted, if_neg hl]
      exact hcons l rfl (fun he => by rw [he] at hl; exact hl rfl)

lemma mkModel_input_sizes (z x zz : Option (List Elem)) (m : Model)
    (h : mkModel z x zz = .ok m) :
    (defaulted z m.L).length = m.L ∧ (defaulted x m.L).length = m.L ∧
    (defaulted zz (m.L - 1)).length = m.L - 1 := by
  obtain ⟨hD, _⟩ := mkModel_ok_elim z x zz m h
  refine ⟨?_, ?_, ?_⟩
  · refine defaulted_length z m.L (fun l hl hne => ?_)
    refine determine_L_ok_of_mem hD ?_
    rw [impliedLengthList, List.mem_append, List.mem_append]
    exact Or.inl (Or.inl ((mem_optPart_iff _ z l.length).2 ⟨l, hl, hne, rfl⟩))
  · refine defaulted_length x m.L (fun l hl hne => ?_)
    refine determine_L_ok_of_mem hD ?_
    rw [impliedLengthList, List.mem_append, List.mem_append]
    exact Or.inl (Or.inr ((mem_optPart_iff _ x l.length).2 ⟨l, hl, hne, rfl⟩))
  · refine defaulted_length zz (m.L - 1) (fun l hl hne => ?_)
    have : l.length + 1 = m.L := by
      refine determine_L_ok_of_mem hD ?_
      rw [impliedLengthList, List.mem_append, List.mem_append]
      exact Or.inr ((mem_optPart_iff _ zz (l.length + 1)).2 ⟨l, hl, hne, rfl⟩)
    omega

lemma construct_attribute_value (p : Option (List Elem)) (size n0 : Nat)
    (hlen : (defaulted p size).length = size) (k : Nat) (hk : k < size) :
    ((construct_attribute p size n0).1.getD k default).value =
      ((defaulted p size).getD k default).value := by
  rw [(construct_attribute_spec p size n0 hlen).2 k hk, wrapAt_value]
  exact firstEqIdx_value (by omega)

lemma construct_attribute_isScalar (p : Option (List Elem)) (size n0 : Nat)
    (hlen : (defaulted p size).length = size) (k : Nat) (hk : k < size) :
    ((construct_attribute p size n0).1.getD k default).isScalar = true := by
  rw [(construct_attribute_spec p size n0 hlen).2 k hk]
  obtain ⟨s, hws⟩ := wrapAt_isScalar (defaulted p size) n0 _
  rw [hws]
  rfl

/-! ### Per-array consequences of the construction -/

lemma firstEqIdx_idem {xs : List Elem} {k : Nat} (hk : k < xs.length) :
    firstEqIdx xs (firstEqIdx xs k) = firstEqIdx xs k :=
  firstEqIdx_congr xs _ _ (firstEqIdx_value hk)

/-- Value-equal raw input entries share, after normalization, the object
installed at the first value-equal occurrence. -/
def SharedRep (input out : List Elem) : Prop :=
  ∀ i j, i < j → j < input.length →
    pyEq (input.getD i default) (input.getD j default) = true →
    out.getD j default = out.getD i default ∧
    out.getD j default = out.getD (firstEqIdx input j) default

/-- A caller-supplied scalar entry keeps its value; if it is the first
occurrence of its value it survives as the very same object. -/
def WrapIdem (input out : List Elem) : Prop :=
  ∀ i s, i < input.length → input.getD i default = Elem.scal s →
    (∃ t, out.getD i default = Elem.scal t ∧ t.val = s.val) ∧
    (firstEqIdx input i = i → out.getD i default = Elem.scal s)

/-- A raw entry equal in value to an earlier caller-supplied scalar shares
the normalized object of that scalar's position, and is that scalar itself
when the scalar's position leads its value class. -/
def MixedShare (input out : List Elem) : Prop :=
  ∀ i j s v, i < j → j < input.length →
    input.getD i default = Elem.scal s → input.getD j default = Elem.raw v →
    pyEq (input.getD i default) (input.getD j default) = true →
    out.getD j default = out.getD i default ∧
    (firstEqIdx input i = i → out.getD j default = Elem.scal s)

lemma defaulted_of_some {p : Option (List Elem)} {l : List Elem} {size : Nat}
    (hp : p = some l) (hnil : ¬ l.length = 0) : defaulted p size = l := by
  rw [hp, defaulted, if_neg hnil]

lemma attr_sharedRep (p : Option (List Elem)) (size n0 : Nat)
    (hlen : (defaulted p size).length = size) (l : List Elem) (hp : p = some l) :
    SharedRep l (construct_attribute p size n0).1 := by
  intro i j hij hj hpy
  by_cases hnil : l.length = 0
  · exact absurd hj (by omega)
  · have hd : defaulted p size = l := defaulted_of_some hp hnil
    rw [hd] at hlen
    have hspec := (construct_attribute_spec p size n0 (by rw [hd, hlen])).2
    rw [hd] at hspec
    have hfe : firstEqIdx l i = firstEqIdx l j :=
      firstEqIdx_congr l i j (pyEq_iff.1 hpy)
    have hfej : firstEqIdx l j ≤ j := firstEqIdx_le (by omega)
    constructor
    · rw [hspec j (by omega), hspec i (by omega), hfe]
    · rw [hspec j (by omega), hspec _ (by omega),
        firstEqIdx_idem (by omega)]

lemma attr_wrapIdem (p : Option (List Elem)) (size n0 : Nat)
    (hlen : (defaulted p size).length = size) (l : List Elem) (hp : p = some l) :
    WrapIdem l (construct_attribute p size n0).1 := by
  intro i s hi hs
  by_cases hnil : l.length = 0
  · exact absurd hi (by omega)
  · have hd : defaulted p size = l := defaulted_of_some hp hnil
    rw [hd] at hlen
    have hspec := (construct_attribute_spec p size n0 (by rw [hd, hlen])).2
    rw [hd] at hspec
    have his : i < size := by omega
    constructor
    · obtain ⟨t, hwt⟩ := wrapAt_isScalar l n0 (firstEqIdx l i)
      refine ⟨t, by rw [hspec i his, hwt], ?_⟩
      have hv : (wrapAt l n0 (firstEqIdx l i)).value = (l.getD i default).value := by
        rw [wrapAt_value]
        exact firstEqIdx_value (by omega)
      rw [hwt, hs] at hv
      exact hv
    · intro hfei
      rw [hspec i his, hfei, wrapAt_of_scal n0 hs]

lemma attr_mixedShare (p : Option (List Elem)) (size n0 : Nat)
    (hlen : (defaulted p size).length = size) (l : List Elem) (hp : p = some l) :
    MixedShare l (construct_attribute p size n0).1 := by
  intro i j s v hij hj hsi hsj hpy
  by_cases hnil : l.length = 0
  · exact absurd hj (by omega)
  · have hd : defaulted p size = l := defaulted_of_some hp hnil
    rw [hd] at hlen
    have hspec := (construct_attribute_spec p size n0 (by rw [hd, hlen])).2
    rw [hd] at hspec
    have hfe : firstEqIdx l i = firstEqIdx l j :=
      firstEqIdx_congr l i j (pyEq_iff.1 hpy)
    constructor
    · rw [hspec j (by omega), hspec i (by omega), hfe]
    · intro hfei
      rw [hspec j (by omega), ← hfe, hfei, wrapAt_of_scal n0 hsi]

lemma attr_all_scalar (p : Option (List Elem)) (size n0 : Nat)
    (hlen : (defaulted p size).length = size) :
    ∀ e ∈ (construct_attribute p size n0).1, e.isScalar = true := by
  intro e he
  obtain ⟨k, hk, hke⟩ := List.mem_iff_getElem.1 he
  have hks : k < size := by
    have := (construct_attribute_spec p size n0 hlen).1
    omega
  have h := construct_attribute_isScalar p size n0 hlen k hks
  rw [getD_eq_getElem _ _ hk, hke] at h
  exact h

lemma defaulted_absent {p : Option (List Elem)} (size : Nat)
    (hp : p = none ∨ p = some []) :
    defaulted p size = List.replicate size (Elem.raw 0) := by
  rcases hp with hp | hp
  · rw [hp, defaulted]
  · rw [hp]
    simp [defaulted]

lemma attr_zero (p : Option (List Elem)) (size n0 : Nat)
    (hp : p = none ∨ p = some []) :
    ZeroScalArray (construct_attribute p size n0).1 size := by
  have hd : defaulted p size = List.replicate size (Elem.raw 0) :=
    defaulted_absent size hp
  have hlen : (defaulted p size).length = size := by
    rw [hd, List.length_replicate]
  refine ⟨(construct_attribute_spec p size n0 hlen).1, fun e he => ?_⟩
  obtain ⟨k, hk, hke⟩ := List.mem_iff_getElem.1 he
  have hks : k < size := by
    have := (construct_attribute_spec p size n0 hlen).1
    omega
  have hsc := construct_attribute_isScalar p size n0 hlen k hks
  have hv := construct_attribute_value p size n0 hlen k hks
  rw [getD_eq_getElem _ _ hk, hke] at hsc hv
  have hzero : (defaulted p size).getD k default = Elem.raw 0 := by
    rw [hd, List.getD_eq_getElem?_getD, List.getElem?_replicate, if_pos hks]
    rfl
  rw [hzero] at hv
  cases e with
  | raw w => cases hsc
  | scal s => exact ⟨s, rfl, hv⟩

/-! ### The claims -/

/-- C1: for every input array passed to the `Model` constructor, raw
entries that are equal by value before wrapping receive the very same
normalized object, namely the object installed at the earliest value-equal
occurrence. -/
theorem C1_value_equal_entries_share_object (z x zz : Option (List Elem))
    (m : Model) (h : mkModel z x zz = .ok m) :
    (∀ l, z = some l → SharedRep l m.z_fields) ∧
    (∀ l, x = some l → SharedRep l m.x_fields) ∧
    (∀ l, zz = some l → SharedRep l m.zz_couplers) := by
  obtain ⟨hD, hx, hz, hzz, hmap⟩ := mkModel_ok_elim z x zz m h
  obtain ⟨hdz, hdx, hdzz⟩ := mkModel_input_sizes z x zz m h
  refine ⟨fun l hl => ?_, fun l hl => ?_, fun l hl => ?_⟩
  · rw [hz]
    exact attr_sharedRep z m.L _ hdz l hl
  · rw [hx]
    exact attr_sharedRep x m.L _ hdx l hl
  · rw [hzz]
    exact attr_sharedRep zz (m.L - 1) _ hdzz l hl

/-- Witness for C1: the spec's example, raw z-fields `[5.0, 5.0]`, yields
two normalized z-field entries that are one and the same object. -/
theorem C1_witness :
    mkModel (some [Elem.raw 5, Elem.raw 5]) none none =
      .ok (modelOf (some [Elem.raw 5, Elem.raw 5]) none none) ∧
    (modelOf (some [Elem.raw 5, Elem.raw 5]) none none).z_fields.getD 1 default =
      (modelOf (some [Elem.raw 5, Elem.raw 5]) none none).z_fields.getD 0 default :=
  ⟨rfl,
    ((C1_value_equal_entries_share_object (some [Elem.raw 5, Elem.raw 5]) none none
        (modelOf (some [Elem.raw 5, Elem.raw 5]) none none) rfl).1
      [Elem.raw 5, Elem.raw 5] rfl 0 1 (by decide) (by decide) (by decide)).1⟩

/-- C2: with no implied length the chain defaults to a single site with
zero fields and no couplers; otherwise the chain length is the unique
implied length, and each absent or empty array is synthesized as a zero
array of the required size. -/
theorem C2_chain_length_resolution (z x zz : Option (List Elem))
    (m : Model) (h : mkModel z x zz = .ok m) :
    ((∀ n, ¬ ImpliesChainLen z x zz n) →
      m.L = 1 ∧ ZeroScalArray m.z_fields 1 ∧ ZeroScalArray m.x_fields 1 ∧
        ZeroScalArray m.zz_couplers 0) ∧
    (∀ n, ImpliesChainLen z x zz n → m.L = n) ∧
    ((z = none ∨ z = some []) → ZeroScalArray m.z_fields m.L) ∧
    ((x = none ∨ x = some []) → ZeroScalArray m.x_fields m.L) ∧
    ((zz = none ∨ zz = some []) → ZeroScalArray m.zz_couplers (m.L - 1)) := by
  obtain ⟨hD, hx, hz, hzz, hmap⟩ := mkModel_ok_elim z x zz m h
  have hzl : (z = none ∨ z = some []) → ZeroScalArray m.z_fields m.L := by
    intro hcase
    rw [hz]
    exact attr_zero z m.L _ hcase
  have hxl : (x = none ∨ x = some []) → ZeroScalArray m.x_fields m.L := by
    intro hcase
    rw [hx]
    exact attr_zero x m.L _ hcase
  have hzzl : (zz = none ∨ zz = some []) → ZeroScalArray m.zz_couplers (m.L - 1) := by
    intro hcase
    rw [hzz]
    exact attr_zero zz (m.L - 1) _ hcase
  have himp : ∀ n, ImpliesChainLen z x zz n → m.L = n := fun n hn =>
    (determine_L_ok_of_mem hD ((mem_impliedLengthList_iff z x zz n).2 hn)).symm
  refine ⟨?_, himp, hzl, hxl, hzzl⟩
  intro habs
  have hznone : z = none ∨ z = some [] := by
    cases z with
    | none => exact Or.inl rfl
    | some l =>
      by_cases hnl : l = []
      · exact Or.inr (by rw [hnl])
      · exact absurd (Or.inl ⟨l, rfl, hnl, rfl⟩) (habs l.length)
  have hxnone : x = none ∨ x = some [] := by
    cases x with
    | none => exact Or.inl rfl
    | some l =>
      by_cases hnl : l = []
      · exact Or.inr (by rw [hnl])
      · exact absurd (Or.inr (Or.inl ⟨l, rfl, hnl, rfl⟩)) (habs l.length)
  have hzznone : zz = none ∨ zz = some [] := by
    cases zz with
    | none => exact Or.inl rfl
    | some l =>
      by_cases hnl : l = []
      · exact Or.inr (by rw [hnl])
      · exact absurd (Or.inr (Or.inr ⟨l, rfl, hnl, rfl⟩)) (habs (l.length + 1))
  have hL1 : m.L = 1 := by
    refine determine_L_ok_of_empty hD ?_
    refine List.eq_nil_iff_forall_not_mem.2 (fun n hn => ?_)
    exact habs n ((mem_impliedLengthList_iff z x zz n).1 hn)
  refine ⟨hL1, ?_, ?_, ?_⟩
  · have hres := hzl hznone
    rw [hL1] at hres
    exact hres
  · have hres := hxl hxnone
    rw [hL1] at hres
    exact hres
  · have hres := hzzl hzznone
    rw [hL1] at hres
    exact hres

/-- Witness for C2: couplers of length 2 and no fields give a chain of
length 3. -/
theorem C2_witness :
    mkModel none none (some [Elem.raw 2, Elem.raw 3]) =
      .ok (modelOf none none (some [Elem.raw 2, Elem.raw 3])) ∧
    (modelOf none none (some [Elem.raw 2, Elem.raw 3])).L = 3 :=
  ⟨rfl, (C2_chain_length_resolution none none (some [Elem.raw 2, Elem.raw 3])
      (modelOf none none (some [Elem.raw 2, Elem.raw 3])) rfl).2.1 3
    (Or.inr (Or.inr ⟨[Elem.raw 2, Elem.raw 3], rfl, by decide, rfl⟩))⟩

/-- C3: construction fails, and fails with the dimension-mismatch error,
exactly when two present non-empty inputs imply distinct chain lengths; no
other input makes construction fail. -/
theorem C3_failure_iff_incompatible_dimensions (z x zz : Option (List Elem)) :
    (mkModel z x zz = .error .DimensionMismatch ↔
      ∃ n1 n2, ImpliesChainLen z x zz n1 ∧ ImpliesChainLen z x zz n2 ∧ n1 ≠ n2) ∧
    (∀ e, mkModel z x zz = .error e → e = .DimensionMismatch) := by
  constructor
  · cases hD : determine_L z x zz with
    | error e =>
      cases e
      have h1 : 1 < (candidate_Ls z x zz).length :=
        (determine_L_error_iff z x zz).1 hD
      rw [candidate_Ls] at h1
      obtain ⟨a, ha, b, hb, hne⟩ :=
        (one_lt_dedup_iff (impliedLengthList z x zz)).1 h1
      constructor
      · intro _
        exact ⟨a, b, (mem_impliedLengthList_iff z x zz a).1 ha,
          (mem_impliedLengthList_iff z x zz b).1 hb, hne⟩
      · intro _
        simp only [mkModel, hD]
    | ok L =>
      constructor
      · intro hcon
        simp only [mkModel, hD] at hcon
        cases hcon
      · rintro ⟨n1, n2, h1, h2, hne⟩
        exfalso
        have hlt : 1 < (candidate_Ls z x zz).length := by
          rw [candidate_Ls]
          exact (one_lt_dedup_iff _).2
            ⟨n1, (mem_impliedLengthList_iff z x zz n1).2 h1,
             n2, (mem_impliedLengthList_iff z x zz n2).2 h2, hne⟩
        have herr := (determine_L_error_iff z x zz).2 hlt
        rw [hD] at herr
        cases herr
  · intro e he
    cases e
    rfl

/-- Witness for C3: z-fields of length 2 with x-fields of length 1 imply
the distinct lengths 2 and 1, so construction fails with the
dimension-mismatch error. -/
theorem C3_witness :
    mkModel (some [Elem.raw 1, Elem.raw 2]) (some [Elem.raw 1]) none =
      .error .DimensionMismatch :=
  (C3_failure_iff_incompatible_dimensions
      (some [Elem.raw 1, Elem.raw 2]) (some [Elem.raw 1]) none).1.2
    ⟨2, 1, Or.inl ⟨[Elem.raw 1, Elem.raw 2], rfl, by decide, rfl⟩,
      Or.inr (Or.inl ⟨[Elem.raw 1], rfl, by decide, rfl⟩), by decide⟩

/-- C4: every entry of the x-field map is the smallest site index whose
normalized x-field is equal by value to that site's normalized x-field. -/
theorem C4_map_entry_is_smallest_equal_index (z x zz : Option (List Elem))
    (m : Model) (h : mkModel z x zz = .ok m) :
    ∀ r, r < m.L →
      m.map_btwn_site_indices_and_unique_x_fields.getD r default ≤ r ∧
      pyEq (m.x_fields.getD
          (m.map_btwn_site_indices_and_unique_x_fields.getD r default) default)
        (m.x_fields.getD r default) = true ∧
      (∀ i, pyEq (m.x_fields.getD i default) (m.x_fields.getD r default) = true →
        m.map_btwn_site_indices_and_unique_x_fields.getD r default ≤ i) := by
  obtain ⟨hD, hx, hz, hzz, hmap⟩ := mkModel_ok_elim z x zz m h
  obtain ⟨hdz, hdx, hdzz⟩ := mkModel_input_sizes z x zz m h
  have hxlen : m.x_fields.length = m.L := by
    rw [hx]
    exact (construct_attribute_spec x m.L _ hdx).1
  intro r hr
  have hmr : m.map_btwn_site_indices_and_unique_x_fields.getD r default =
      firstEqIdx m.x_fields r := by
    rw [hmap, calc_map_btwn_site_indices_and_unique_x_fields]
    exact calcMap_pyEq_spec m.x_fields m.L hxlen r hr
  rw [hmr]
  refine ⟨firstEqIdx_le (by omega), findIdx_true_at (firstEqIdx_lt (by omega)), ?_⟩
  intro i hpyi
  by_cases hi : i < m.x_fields.length
  · exact findIdx_le_of_true hi hpyi
  · have hle := @List.findIdx_le_length Elem
      (fun e => pyEq e (m.x_fields.getD r default)) m.x_fields
    rw [firstEqIdx]
    omega

/-- Witness for C4: the spec's example `[1, 2, 1, 3]` at site 2. -/
theorem C4_witness :
    mkModel none (some [Elem.raw 1, Elem.raw 2, Elem.raw 1, Elem.raw 3]) none =
      .ok (modelOf none (some [Elem.raw 1, Elem.raw 2, Elem.raw 1, Elem.raw 3]) none) ∧
    (modelOf none
        (some [Elem.raw 1, Elem.raw 2, Elem.raw 1, Elem.raw 3])
        none).map_btwn_site_indices_and_unique_x_fields.getD 2 default ≤ 2 :=
  ⟨rfl, (C4_map_entry_is_smallest_equal_index none
      (some [Elem.raw 1, Elem.raw 2, Elem.raw 1, Elem.raw 3]) none
      (modelOf none (some [Elem.raw 1, Elem.raw 2, Elem.raw 1, Elem.raw 3]) none)
      rfl 2 (by decide)).1⟩

/-- C5: for raw x-fields `[1, 2, 1, 3]` the normalized x-fields at indices
0 and 2 are the identical shared object and the equivalence map is
`[0, 1, 0, 3]`. -/
theorem C5_concrete_sharing_and_map :
    mkModel none (some [Elem.raw 1, Elem.raw 2, Elem.raw 1, Elem.raw 3]) none =
      .ok (modelOf none (some [Elem.raw 1, Elem.raw 2, Elem.raw 1, Elem.raw 3]) none) ∧
    (modelOf none (some [Elem.raw 1, Elem.raw 2, Elem.raw 1, Elem.raw 3])
        none).x_fields.getD 0 default =
      (modelOf none (some [Elem.raw 1, Elem.raw 2, Elem.raw 1, Elem.raw 3])
        none).x_fields.getD 2 default ∧
    (modelOf none (some [Elem.raw 1, Elem.raw 2, Elem.raw 1, Elem.raw 3])
        none).map_btwn_site_indices_and_unique_x_fields = [0, 1, 0, 3] :=
  ⟨rfl, by decide, by decide⟩

/-- C6: an input entry that is already a `Scalar` keeps its semantic value
under normalization (it is never wrapped a second time), and survives as
the identical object whenever it is the first occurrence of its value. -/
theorem C6_prewrapped_scalars_preserved (z x zz : Option (List Elem))
    (m : Model) (h : mkModel z x zz = .ok m) :
    (∀ l, z = some l → WrapIdem l m.z_fields) ∧
    (∀ l, x = some l → WrapIdem l m.x_fields) ∧
    (∀ l, zz = some l → WrapIdem l m.zz_couplers) := by
  obtain ⟨hD, hx, hz, hzz, hmap⟩ := mkModel_ok_elim z x zz m h
  obtain ⟨hdz, hdx, hdzz⟩ := mkModel_input_sizes z x zz m h
  refine ⟨fun l hl => ?_, fun l hl => ?_, fun l hl => ?_⟩
  · rw [hz]
    exact attr_wrapIdem z m.L _ hdz l hl
  · rw [hx]
    exact attr_wrapIdem x m.L _ hdx l hl
  · rw [hzz]
    exact attr_wrapIdem zz (m.L - 1) _ hdzz l hl

/-- Witness for C6: a pre-built scalar with a distinct value passes through
construction unchanged. -/
theorem C6_witness :
    mkModel none (some [Elem.scal ⟨3, 7⟩, Elem.raw 9]) none =
      .ok (modelOf none (some [Elem.scal ⟨3, 7⟩, Elem.raw 9]) none) ∧
    (modelOf none (some [Elem.scal ⟨3, 7⟩, Elem.raw 9])
        none).x_fields.getD 0 default = Elem.scal ⟨3, 7⟩ :=
  ⟨rfl, ((C6_prewrapped_scalars_preserved none
      (some [Elem.scal ⟨3, 7⟩, Elem.raw 9]) none
      (modelOf none (some [Elem.scal ⟨3, 7⟩, Elem.raw 9]) none) rfl).2.1
    [Elem.scal ⟨3, 7⟩, Elem.raw 9] rfl 0 ⟨3, 7⟩ (by decide) (by decide)).2 (by decide)⟩

/-- C7 counterexample: with no x-fields and chain length 4 the computed
map is `[0, 0, 0, 0]`, not `[0, 1, 2, 3]` as the claim states. -/
theorem C7_counterexample :
    mkModel none none (some [Elem.raw 2, Elem.raw 3, Elem.raw 4]) =
      .ok (modelOf none none (some [Elem.raw 2, Elem.raw 3, Elem.raw 4])) ∧
    (modelOf none none (some [Elem.raw 2, Elem.raw 3, Elem.raw 4])).L = 4 ∧
    (modelOf none none
        (some [Elem.raw 2, Elem.raw 3, Elem.raw 4])).map_btwn_site_indices_and_unique_x_fields ≠
      [0, 1, 2, 3] :=
  ⟨rfl, by decide, by decide⟩

/-- C7 as amended: with no x-fields and chain length 4 all four defaulted
zero x-fields collapse into one shared object, so the map is `[0,0,0,0]`. -/
theorem C7_amended_default_x_map (zz : List Elem) (h3 : zz.length = 3)
    (m : Model) (hm : mkModel none none (some zz) = .ok m) :
    m.map_btwn_site_indices_and_unique_x_fields = [0, 0, 0, 0] := by
  obtain ⟨hD, hx, hz, hzz, hmap⟩ := mkModel_ok_elim none none (some zz) m hm
  obtain ⟨hdz, hdx, hdzz⟩ := mkModel_input_sizes none none (some zz) m hm
  have hL : m.L = 4 := by
    have hmem : zz.length + 1 = m.L := by
      refine determine_L_ok_of_mem hD ?_
      rw [impliedLengthList, List.mem_append]
      refine Or.inr ((mem_optPart_iff _ (some zz) (zz.length + 1)).2
        ⟨zz, rfl, ?_, rfl⟩)
      intro he
      rw [he] at h3
      cases h3
    omega
  have hxlen : m.x_fields.length = m.L := by
    rw [hx]
    exact (construct_attribute_spec none m.L _ hdx).1
  have hval : ∀ k, k < m.L → (m.x_fields.getD k default).value = 0 := by
    intro k hk
    rw [hx, construct_attribute_value none m.L _ hdx k hk,
      defaulted_absent m.L (Or.inl rfl), List.getD_eq_getElem?_getD,
      List.getElem?_replicate, if_pos hk]
    rfl
  have hfe : ∀ r, r < m.L → firstEqIdx m.x_fields r = 0 := by
    intro r hr
    have h0 : pyEq (m.x_fields.getD 0 default) (m.x_fields.getD r default) = true := by
      refine pyEq_iff.2 ?_
      rw [hval 0 (by omega), hval r hr]
    have hle := findIdx_le_of_true
      (p := fun e => pyEq e (m.x_fields.getD r default))
      (show 0 < m.x_fields.length by omega) h0
    rw [firstEqIdx]
    omega
  have hmr : ∀ r, r < m.L →
      m.map_btwn_site_indices_and_unique_x_fields.getD r default = 0 := by
    intro r hr
    rw [hmap, calc_map_btwn_site_indices_and_unique_x_fields,
      calcMap_pyEq_spec m.x_fields m.L hxlen r hr]
    exact hfe r hr
  have hmlen : m.map_btwn_site_indices_and_unique_x_fields.length = 4 := by
    rw [hmap, calc_map_btwn_site_indices_and_unique_x_fields, calcMap_length, hL]
  refine List.ext_getElem (by rw [hmlen]; rfl) ?_
  intro i h1 h2
  have hi4 : i < 4 := by rw [hmlen] at h1; exact h1
  have hv := hmr i (by omega)
  rw [getD_eq_getElem _ _ h1] at hv
  rw [hv]
  interval_cases i <;> rfl

/-- Witness for the amended C7. -/
theorem C7_witness :
    ([Elem.raw 2, Elem.raw 3, Elem.raw 4] : List Elem).length = 3 ∧
    (modelOf none none
        (some [Elem.raw 2, Elem.raw 3, Elem.raw 4])).map_btwn_site_indices_and_unique_x_fields =
      [0, 0, 0, 0] :=
  ⟨rfl, C7_amended_default_x_map [Elem.raw 2, Elem.raw 3, Elem.raw 4] rfl
    (modelOf none none (some [Elem.raw 2, Elem.raw 3, Elem.raw 4])) rfl⟩

/-- C8: every element of the three normalized arrays is a `Scalar`
instance, never a raw number. -/
theorem C8_all_entries_are_scalars (z x zz : Option (List Elem))
    (m : Model) (h : mkModel z x zz = .ok m) :
    (∀ e ∈ m.z_fields, e.isScalar = true) ∧
    (∀ e ∈ m.x_fields, e.isScalar = true) ∧
    (∀ e ∈ m.zz_couplers, e.isScalar = true) := by
  obtain ⟨hD, hx, hz, hzz, hmap⟩ := mkModel_ok_elim z x zz m h
  obtain ⟨hdz, hdx, hdzz⟩ := mkModel_input_sizes z x zz m h
  refine ⟨?_, ?_, ?_⟩
  · rw [hz]
    exact attr_all_scalar z m.L _ hdz
  · rw [hx]
    exact attr_all_scalar x m.L _ hdx
  · rw [hzz]
    exact attr_all_scalar zz (m.L - 1) _ hdzz

/-- Witness for C8: the single normalized z-field entry of a one-site
model is a `Scalar`. -/
theorem C8_witness :
    mkModel (some [Elem.raw 5]) none none =
      .ok (modelOf (some [Elem.raw 5]) none none) ∧
    ((modelOf (some [Elem.raw 5]) none none).z_fields.getD 0 default).isScalar = true :=
  ⟨rfl, (C8_all_entries_are_scalars (some [Elem.raw 5]) none none
      (modelOf (some [Elem.raw 5]) none none) rfl).1 _ (by decide)⟩

/-- C9: the x-field map sends every site index to an index no larger than
itself and is idempotent, for every constructed model and indeed for an
arbitrary boolean comparison in place of scalar equality. -/
theorem C9_map_bounds_and_idempotence :
    (∀ (eqb : Elem → Elem → Bool) (xs : List Elem) (L r : Nat), r < L →
      (calcMapGen eqb xs L).getD r default ≤ r ∧
      (calcMapGen eqb xs L).getD ((calcMapGen eqb xs L).getD r default) default =
        (calcMapGen eqb xs L).getD r default) ∧
    (∀ (z x zz : Option (List Elem)) (m : Model), mkModel z x zz = .ok m →
      ∀ r, r < m.L →
        m.map_btwn_site_indices_and_unique_x_fields.getD r default ≤ r ∧
        m.map_btwn_site_indices_and_unique_x_fields.getD
            (m.map_btwn_site_indices_and_unique_x_fields.getD r default) default =
          m.map_btwn_site_indices_and_unique_x_fields.getD r default) := by
  have hgen : ∀ (eqb : Elem → Elem → Bool) (xs : List Elem) (L r : Nat), r < L →
      (calcMapGen eqb xs L).getD r default ≤ r ∧
      (calcMapGen eqb xs L).getD ((calcMapGen eqb xs L).getD r default) default =
        (calcMapGen eqb xs L).getD r default := by
    intro eqb xs L r hr
    obtain ⟨_, ha, hb, _⟩ := mapLoopAux_inv eqb xs L L le_rfl
    exact ⟨ha r hr, hb r hr⟩
  refine ⟨hgen, ?_⟩
  intro z x zz m h r hr
  obtain ⟨hD, hx, hz, hzz, hmap⟩ := mkModel_ok_elim z x zz m h
  rw [hmap, calc_map_btwn_site_indices_and_unique_x_fields]
  exact hgen pyEq m.x_fields m.L r hr

/-- Witness for C9 at a concrete comparison, list and index. -/
theorem C9_witness :
    1 < 3 ∧ ((calcMapGen pyEq [] 3).getD 1 default ≤ 1 ∧
      (calcMapGen pyEq [] 3).getD ((calcMapGen pyEq [] 3).getD 1 default) default =
        (calcMapGen pyEq [] 3).getD 1 default) :=
  ⟨by decide, C9_map_bounds_and_idempotence.1 pyEq [] 3 1 (by decide)⟩

/-- C10 counterexample: in `[5.0, s, 5.0]` with `s` a pre-built scalar of
value 5, the later raw 5 compares equal to `s` but its normalized entry is
the object freshly created at index 0, not `s` itself. -/
theorem C10_counterexample :
    pyEq (Elem.scal ⟨7, 5⟩) (Elem.raw 5) = true ∧
    (modelOf none (some [Elem.raw 5, Elem.scal ⟨7, 5⟩, Elem.raw 5])
        none).x_fields.getD 2 default ≠ Elem.scal ⟨7, 5⟩ := by
  decide

/-- C10 as amended: a later raw entry equal in value to an earlier
caller-supplied scalar `s` shares the normalized object of `s`'s position
(it is never independently wrapped), and that object is `s` itself exactly
when `s`'s position is the first occurrence of the value. -/
theorem C10_amended_mixed_sharing (z x zz : Option (List Elem))
    (m : Model) (h : mkModel z x zz = .ok m) :
    (∀ l, z = some l → MixedShare l m.z_fields) ∧
    (∀ l, x = some l → MixedShare l m.x_fields) ∧
    (∀ l, zz = some l → MixedShare l m.zz_couplers) := by
  obtain ⟨hD, hx, hz, hzz, hmap⟩ := mkModel_ok_elim z x zz m h
  obtain ⟨hdz, hdx, hdzz⟩ := mkModel_input_sizes z x zz m h
  refine ⟨fun l hl => ?_, fun l hl => ?_, fun l hl => ?_⟩
  · rw [hz]
    exact attr_mixedShare z m.L _ hdz l hl
  · rw [hx]
    exact attr_mixedShare x m.L _ hdx l hl
  · rw [hzz]
    exact attr_mixedShare zz (m.L - 1) _ hdzz l hl

/-- Witness for the amended C10: the pre-built scalar leads its value
class, so the later raw entry normalizes to that very object. -/
theorem C10_witness :
    mkModel none (some [Elem.scal ⟨7, 5⟩, Elem.raw 5]) none =
      .ok (modelOf none (some [Elem.scal ⟨7, 5⟩, Elem.raw 5]) none) ∧
    (modelOf none (some [Elem.scal ⟨7, 5⟩, Elem.raw 5])
        none).x_fields.getD 1 default = Elem.scal ⟨7, 5⟩ :=
  ⟨rfl, ((C10_amended_mixed_sharing none
      (some [Elem.scal ⟨7, 5⟩, Elem.raw 5]) none
      (modelOf none (some [Elem.scal ⟨7, 5⟩, Elem.raw 5]) none) rfl).2.1
    [Elem.scal ⟨7, 5⟩, Elem.raw 5] rfl 0 1 ⟨7, 5⟩ 5
    (by decide) (by decide) (by decide) (by decide) (by decide)).2 (by decide)⟩

end Sbc
